import Mathlib

/-!
Verification development for the Shrone_Agent retrieval-and-ranking core.

The Python source is shallowly embedded:
* `src/ingestion/chunk.py` — token-true chunking with boundary adjustment
  (`chunk_blocks`, `_chunk_single_block`, `_adjust_chunk_boundary`);
* `src/document_retriever.py` — candidate dedup/merge, BM25 scoring,
  hybrid combination, reranking and the retrieval orchestrator.

Python strings are embedded as `List Char`, Python ints as `Nat`,
Python float scores as `ℚ` (exact arithmetic; `math.log` is passed in as an
abstract function, mirroring the fact that no claim depends on its values),
and fallible code as `Except String`.  The tokenizer is a parameter of the
chunking code in the source (`tokenizer: Optional[Any]`), so it is embedded
as an explicit `Tokenizer` structure; `charTok` is the character-level
instance used for concrete evaluations.
-/

/-- Python `str` is embedded as a list of characters. -/
abbrev PyStr := List Char

/-- The characters stripped by Python's `str.strip()` (ASCII whitespace). -/
def isPySpace (c : Char) : Bool :=
  (c == ' ') || (c == '\t') || (c == '\n') || (c == '\r') ||
  (c == Char.ofNat 11) || (c == Char.ofNat 12)

/-- Embedding of Python `str.strip()`. -/
def pstrip (l : PyStr) : PyStr :=
  ((l.dropWhile isPySpace).reverse.dropWhile isPySpace).reverse

/-- Embedding of Python `line.endswith(('.', '!', '?', ':'))`. -/
def endsWithPunct (l : PyStr) : Bool :=
  match l.getLast? with
  | some c => (c == '.') || (c == '!') || (c == '?') || (c == ':')
  | none => false

/-- Embedding of Python `str.split('\n')` (always returns ≥ 1 piece). -/
def splitNL : PyStr → List PyStr
  | [] => [[]]
  | c :: rest =>
    match splitNL rest with
    | [] => [[]]
    | l :: ls => if c = '\n' then [] :: l :: ls else (c :: l) :: ls

/-- Embedding of Python `'\n'.join(...)`. -/
def joinNL : List PyStr → PyStr
  | [] => []
  | l :: ls => l ++ ls.flatMap (fun x => '\n' :: x)

theorem splitNL_ne_nil (l : PyStr) : splitNL l ≠ [] := by
  cases l with
  | nil => simp [splitNL]
  | cons c rest =>
    simp only [splitNL]
    rcases h : splitNL rest with _ | ⟨m, ms⟩
    · simp
    · by_cases hc : c = '\n' <;> simp [hc]

theorem joinNL_splitNL (l : PyStr) : joinNL (splitNL l) = l := by
  induction l with
  | nil => simp [splitNL, joinNL]
  | cons c rest ih =>
    simp only [splitNL]
    rcases h : splitNL rest with _ | ⟨m, ms⟩
    · exact absurd h (splitNL_ne_nil rest)
    · rw [h] at ih
      by_cases hc : c = '\n'
      · subst hc
        simpa [joinNL, List.flatMap_cons] using ih
      · simp only [if_neg hc]
        simpa [joinNL] using ih

theorem flatMap_take_front {α β : Type} (f : α → List β) (k : Nat) (xs : List α) :
    ((xs.take k).flatMap f) <+: xs.flatMap f := by
  induction xs generalizing k with
  | nil => simp
  | cons x xs ih =>
    cases k with
    | zero => simp
    | succ k =>
      simp only [List.take_succ_cons, List.flatMap_cons]
      exact (List.prefix_append_right_inj (f x)).mpr (ih k)

/-- A `'\n'.join` of a `lines[:j]` slice is a string prefix of the join of all lines. -/
theorem joinNL_take_isPre (ls : List PyStr) (j : Nat) :
    joinNL (ls.take j) <+: joinNL ls := by
  cases ls with
  | nil => simp
  | cons l ls =>
    cases j with
    | zero => simp [joinNL]
    | succ j =>
      simp only [List.take_succ_cons, joinNL]
      exact (List.prefix_append_right_inj l).mpr (flatMap_take_front _ j ls)

/-- Bullet-char set of the source regex `^\s*[•·‣▪▫‣]\s*` (applied to a
stripped line, so the leading `\s*` is vacuous). -/
def isBulletChar (c : Char) : Bool :=
  (c == '•') || (c == '·') || (c == '‣') || (c == '▪') || (c == '▫')

/-- Dash/asterisk bullet chars of `^\s*[-*+]\s*`. -/
def isDashChar (c : Char) : Bool :=
  (c == '-') || (c == '*') || (c == '+')

/-- After ≥1 digits, the first non-digit char must be `'.'`
(backtracking-equivalent form of `^\s*\d+\.\s*`). -/
def dotAfterDigits : PyStr → Bool
  | [] => false
  | c :: rest => if c.isDigit then dotAfterDigits rest else c == '.'

/-- `^\s*\d+\.\s*` on a stripped line. -/
def startsDigitsDot : PyStr → Bool
  | c :: rest => c.isDigit && dotAfterDigits rest
  | [] => false

/-- `^\s*[a-zA-Z]\.\s*` on a stripped line. -/
def startsLetterDot : PyStr → Bool
  | c :: d :: _ => c.isAlpha && (d == '.')
  | _ => false

/-- After ≥1 alphanumerics, the first non-alphanumeric char must be `')'`. -/
def closeAfterAlnum : PyStr → Bool
  | [] => false
  | c :: rest => if c.isAlphanum then closeAfterAlnum rest else c == ')'

/-- `^\s*\([a-zA-Z0-9]+\)\s*` on a stripped line. -/
def startsParenItem : PyStr → Bool
  | '(' :: c :: rest => c.isAlphanum && closeAfterAlnum rest
  | _ => false

/-- `any(re.match(pattern, line) for pattern in bullet_patterns)` on the
stripped line (matching the five patterns of `_adjust_chunk_boundary`). -/
def bulletMatch (l : PyStr) : Bool :=
  (match l with
   | c :: _ => isBulletChar c || isDashChar c
   | [] => false) ||
  startsDigitsDot l || startsLetterDot l || startsParenItem l

/-- Good break line: Python `not line or line.endswith(('.', '!', '?', ':'))`
on the stripped line. -/
def goodCut (l : PyStr) : Bool := l.isEmpty || endsWithPunct l

/-- Indices visited by `for i in range(len(lines)-1, max(0, len(lines)-5), -1)`
(descending, lower bound exclusive; `Nat` subtraction realizes the `max 0`). -/
def scanIdxs (n : Nat) : List Nat :=
  (List.range (n - 1 - (n - 5))).map (fun k => n - 1 - k)

/-- One iteration of the backward scan of `_adjust_chunk_boundary`.  The
source first runs the sentence/blank-line break test (returning
`lines[:i+1]` when the candidate is non-blank, otherwise falling through),
then the bullet-pattern test that prefers cutting before the bullet line
(guarded by `i > 0` and by `prev_line and (prev_line.endswith(...) or not
prev_line)`, whose second disjunct is dead and kept verbatim); the
fall-through chain is written here as nested conditionals with the same
result. -/
def adjStep (lines : List PyStr) (i : Nat) : Option PyStr :=
  if goodCut (pstrip (lines.getD i [])) &&
      !(pstrip (joinNL (lines.take (i + 1)))).isEmpty then
    some (joinNL (lines.take (i + 1)))
  else if bulletMatch (pstrip (lines.getD i [])) && decide (0 < i) &&
      ((!(pstrip (lines.getD (i - 1) [])).isEmpty) &&
        (endsWithPunct (pstrip (lines.getD (i - 1) [])) ||
          (pstrip (lines.getD (i - 1) [])).isEmpty)) &&
      !(pstrip (joinNL (lines.take i))).isEmpty then
    some (joinNL (lines.take i))
  else none

/-- Embedding of `_adjust_chunk_boundary` from `src/ingestion/chunk.py`
(the source's `full_block_text`, `start_token` and `tokenizer` parameters are
unused by its body and therefore omitted). -/
def _adjust_chunk_boundary (chunk_text : PyStr) : PyStr :=
  match (scanIdxs (splitNL chunk_text).length).findSome? (adjStep (splitNL chunk_text)) with
  | some b => b
  | none => chunk_text

/-- A tokenizer as consumed by `chunk_blocks` (any object with
`encode`/`decode` producing integer token ids). -/
structure Tokenizer where
  encode : PyStr → List Nat
  decode : List Nat → PyStr

/-- A structure-detection block as consumed by `chunk_blocks`. -/
structure Block where
  text : PyStr
  page_start : Nat
  page_end : Nat
  heading_path : List PyStr

/-- A chunk dictionary as produced by `chunk_blocks`. -/
structure ChunkD where
  text : PyStr
  token_count : Nat
  page_start : Nat
  page_end : Nat
  heading_path : List PyStr
deriving DecidableEq

/-- `start_token = max(start_token + max_tokens - overlap_tokens, start_token + 1)`.
For `Nat` inputs the truncated subtraction agrees with Python's signed
arithmetic because the `max` with `start + 1` absorbs any clamping. -/
def nextStart (maxTokens overlapTokens start : Nat) : Nat :=
  max (start + maxTokens - overlapTokens) (start + 1)

/-- The `while start_token < len(tokens)` loop of `_chunk_single_block`,
written with structural fuel so that it evaluates by kernel reduction.  The
loop advances `start` by at least 1 per iteration (the `max(..., start + 1)`
floor), so `tokens.length - start` units of fuel always suffice;
`chunkLoop_eq` below recovers the natural loop equation under that bound. -/
def chunkLoop (tok : Tokenizer) (tokens : List Nat) (block : Block)
    (maxTokens overlapTokens : Nat) : Nat → Nat → List ChunkD
  | 0, _ => []
  | fuel + 1, start =>
    if start < tokens.length then
      let endTok := min (start + maxTokens) tokens.length
      let windowTokens := (tokens.drop start).take (endTok - start)
      let rawText := tok.decode windowTokens
      if endTok < tokens.length then
        let adjText := _adjust_chunk_boundary rawText
        let adjTokens := tok.encode adjText
        ⟨pstrip adjText, adjTokens.length, block.page_start, block.page_end,
          block.heading_path⟩ ::
          chunkLoop tok tokens block maxTokens overlapTokens fuel
            (nextStart maxTokens overlapTokens start)
      else
        [⟨pstrip rawText, windowTokens.length, block.page_start, block.page_end,
          block.heading_path⟩]
    else []

/-- Fuel is irrelevant as long as it covers the remaining window count:
the loop equation of `_chunk_single_block`'s `while` loop. -/
theorem chunkLoop_fuel_irrel (tok : Tokenizer) (tokens : List Nat) (block : Block)
    (maxTokens overlapTokens : Nat) :
    ∀ fuel fuel' start, tokens.length ≤ start + fuel → tokens.length ≤ start + fuel' →
      chunkLoop tok tokens block maxTokens overlapTokens fuel start =
      chunkLoop tok tokens block maxTokens overlapTokens fuel' start := by
  intro fuel
  induction fuel with
  | zero =>
    intro fuel' start h h'
    cases fuel' with
    | zero => rfl
    | succ n => simp only [chunkLoop]; rw [if_neg (by omega)]
  | succ n ih =>
    intro fuel' start h h'
    cases fuel' with
    | zero => simp only [chunkLoop]; rw [if_neg (by omega)]
    | succ m =>
      simp only [chunkLoop]
      by_cases hs : start < tokens.length
      · rw [if_pos hs, if_pos hs]
        by_cases hf : min (start + maxTokens) tokens.length < tokens.length
        · rw [if_pos hf, if_pos hf]
          have hnext : start + 1 ≤ nextStart maxTokens overlapTokens start := by
            simp only [nextStart]; omega
          rw [ih m _ (by omega) (by omega)]
        · rw [if_neg hf, if_neg hf]
      · rw [if_neg hs, if_neg hs]

/-- Embedding of `_chunk_single_block` from `src/ingestion/chunk.py`. -/
def _chunk_single_block (tok : Tokenizer) (block : Block)
    (maxTokens overlapTokens : Nat) : List ChunkD :=
  let tokens := tok.encode block.text
  if tokens.length ≤ maxTokens then
    [⟨block.text, tokens.length, block.page_start, block.page_end, block.heading_path⟩]
  else
    chunkLoop tok tokens block maxTokens overlapTokens tokens.length 0

/-- Embedding of `chunk_blocks` from `src/ingestion/chunk.py` (the tiktoken
availability check is an environment concern, not a parameter check; no
parameter validation exists in the source). -/
def chunk_blocks (tok : Tokenizer) (blocks : List Block)
    (maxTokens overlapTokens : Nat) : List ChunkD :=
  blocks.flatMap (fun b =>
    if (pstrip b.text).isEmpty then []
    else _chunk_single_block tok b maxTokens overlapTokens)

/-- Character-level tokenizer: a concrete instance of the tokenizer interface
used to evaluate the chunker on explicit inputs. -/
def charTok : Tokenizer :=
  ⟨fun s => s.map Char.toNat, fun ts => ts.map Char.ofNat⟩

/-- Ceiling division on `Nat` (`ceil (a / b)`). -/
def cdiv (a b : Nat) : Nat := (a + b - 1) / b

theorem charTok_decode_encode (l : PyStr) : charTok.decode (charTok.encode l) = l := by
  simp [charTok, List.map_map, Function.comp_def, Char.ofNat_toNat]

theorem charTok_encode_length (l : PyStr) : (charTok.encode l).length = l.length := by
  simp [charTok]

theorem dropWhile_eq_self_of {p : Char → Bool} {l : PyStr}
    (h : ∀ c ∈ l, p c = false) : l.dropWhile p = l := by
  cases l with
  | nil => rfl
  | cons c rest =>
    rw [List.dropWhile_cons, if_neg]
    rw [h c (List.mem_cons_self c rest)]
    exact Bool.false_ne_true

theorem pstrip_eq_self (l : PyStr) (h : ∀ c ∈ l, isPySpace c = false) :
    pstrip l = l := by
  unfold pstrip
  rw [dropWhile_eq_self_of h,
    dropWhile_eq_self_of (fun c hc => h c (List.mem_reverse.mp hc)),
    List.reverse_reverse]

theorem splitNL_eq_self (l : PyStr) (h : '\n' ∉ l) : splitNL l = [l] := by
  induction l with
  | nil => rfl
  | cons c rest ih =>
    simp only [List.mem_cons, not_or] at h
    simp only [splitNL, ih h.2]
    rw [if_neg (fun hc => h.1 hc.symm)]

theorem scanIdxs_mem {n i : Nat} (h : i ∈ scanIdxs n) :
    1 ≤ i ∧ i < n ∧ n - i ≤ 4 := by
  simp only [scanIdxs, List.mem_map, List.mem_range] at h
  obtain ⟨k, hk, rfl⟩ := h
  omega

theorem adjStep_some {lines : List PyStr} {i : Nat} {b : PyStr}
    (h : adjStep lines i = some b) :
    (goodCut (pstrip (lines.getD i [])) = true ∧
     b = joinNL (lines.take (i + 1)) ∧ (pstrip b).isEmpty = false) ∨
    (bulletMatch (pstrip (lines.getD i [])) = true ∧ 0 < i ∧
     (pstrip (lines.getD (i - 1) [])).isEmpty = false ∧
     endsWithPunct (pstrip (lines.getD (i - 1) [])) = true ∧
     b = joinNL (lines.take i) ∧ (pstrip b).isEmpty = false) := by
  unfold adjStep at h
  split at h
  · rename_i hc
    simp only [Bool.and_eq_true, Bool.not_eq_true'] at hc
    simp only [Option.some.injEq] at h
    exact Or.inl ⟨hc.1, h.symm, h ▸ hc.2⟩
  · split at h
    · rename_i hc
      simp only [Bool.and_eq_true, Bool.not_eq_true', Bool.or_eq_true,
        decide_eq_true_eq] at hc
      simp only [Option.some.injEq] at h
      obtain ⟨⟨⟨hb, hi⟩, hne, hpun⟩, hnb⟩ := hc
      refine Or.inr ⟨hb, hi, hne, ?_, h.symm, h ▸ hnb⟩
      rcases hpun with h2 | h2
      · exact h2
      · rw [hne] at h2; exact absurd h2 (by simp)
    · exact absurd h (by simp)

theorem adjStep_none {lines : List PyStr} {i : Nat}
    (hg : goodCut (pstrip (lines.getD i [])) = false)
    (hb : bulletMatch (pstrip (lines.getD i [])) = false) :
    adjStep lines i = none := by
  unfold adjStep
  have h1 : (goodCut (pstrip (lines.getD i [])) &&
      !(pstrip (joinNL (lines.take (i + 1)))).isEmpty) = false := by
    rw [hg, Bool.false_and]
  have h2 : (bulletMatch (pstrip (lines.getD i [])) && decide (0 < i) &&
      ((!(pstrip (lines.getD (i - 1) [])).isEmpty) &&
        (endsWithPunct (pstrip (lines.getD (i - 1) [])) ||
          (pstrip (lines.getD (i - 1) [])).isEmpty)) &&
      !(pstrip (joinNL (lines.take i))).isEmpty) = false := by
    rw [hb, Bool.false_and, Bool.false_and, Bool.false_and]
  rw [if_neg (Bool.eq_false_iff.mp h1), if_neg (Bool.eq_false_iff.mp h2)]

/-- The adjusted chunk text is always a string prefix of the decoded window. -/
theorem adjust_isPre (ct : PyStr) : _adjust_chunk_boundary ct <+: ct := by
  rcases h : (scanIdxs (splitNL ct).length).findSome? (adjStep (splitNL ct)) with _ | b
  · simp only [_adjust_chunk_boundary, h]
    exact List.prefix_refl ct
  · simp only [_adjust_chunk_boundary, h]
    obtain ⟨i, _, hstep⟩ := List.exists_of_findSome?_eq_some h
    rcases adjStep_some hstep with ⟨_, rfl, _⟩ | ⟨_, _, _, _, rfl, _⟩
    · have hp := joinNL_take_isPre (splitNL ct) (i + 1)
      rwa [joinNL_splitNL] at hp
    · have hp := joinNL_take_isPre (splitNL ct) i
      rwa [joinNL_splitNL] at hp

theorem chunkLoop_maxZero_length (tok : Tokenizer) (tokens : List Nat) (block : Block)
    (overlapTokens : Nat) :
    ∀ fuel start, tokens.length ≤ start + fuel →
      (chunkLoop tok tokens block 0 overlapTokens fuel start).length =
        tokens.length - start := by
  intro fuel
  induction fuel with
  | zero =>
    intro start h
    simp only [chunkLoop, List.length_nil]
    omega
  | succ n ih =>
    intro start h
    simp only [chunkLoop]
    by_cases hs : start < tokens.length
    · rw [if_pos hs]
      have hmin : min (start + 0) tokens.length = start := by omega
      rw [hmin, if_pos hs]
      simp only [List.length_cons]
      have hnext : nextStart 0 overlapTokens start = start + 1 := by
        simp only [nextStart]; omega
      rw [hnext, ih (start + 1) (by omega)]
      omega
    · rw [if_neg hs]
      simp only [List.length_nil]
      omega

/-- C4 (corrected). `chunk_blocks` performs no validation of
`max_tokens`/`overlap_tokens`: with the violating parameters
`max_tokens = 0` (which also makes `overlap_tokens ≥ max_tokens` hold) it
does not raise any `InvalidParameter` error — it runs the sliding-window
loop to completion and emits exactly one (empty-window) chunk per token of
a non-blank block, instead of failing fast. -/
theorem C4_no_validation (tok : Tokenizer) (b : Block) (overlapTokens : Nat)
    (h1 : (pstrip b.text).isEmpty = false)
    (h2 : 0 < (tok.encode b.text).length) :
    (chunk_blocks tok [b] 0 overlapTokens).length = (tok.encode b.text).length := by
  unfold chunk_blocks
  simp only [List.flatMap_cons, List.flatMap_nil, List.append_nil, h1,
    Bool.false_eq_true, if_false]
  unfold _chunk_single_block
  rw [if_neg (by omega)]
  rw [chunkLoop_maxZero_length tok _ b overlapTokens _ 0 (by omega)]
  omega

/-- C4 counterexample: at the violating input `max_tokens = 0`,
`overlap_tokens = 0` (violating both `max_tokens ≥ 1` and
`overlap_tokens < max_tokens`), `chunk_blocks` produces chunks — two empty
chunks for a two-token block — rather than failing with `InvalidParameter`. -/
theorem C4_counterexample :
    chunk_blocks charTok [⟨"ab".data, 1, 1, []⟩] 0 0 =
      [⟨[], 0, 1, 1, []⟩, ⟨[], 0, 1, 1, []⟩] := by
  decide

theorem C4_witness :
    (chunk_blocks charTok [⟨"ab".data, 1, 1, []⟩] 0 5).length =
      (charTok.encode "ab".data).length :=
  C4_no_validation charTok ⟨"ab".data, 1, 1, []⟩ 5 (by decide) (by decide)

theorem cdiv_step {x s : Nat} (hs : 0 < s) (hx : s < x) :
    cdiv x s = 1 + cdiv (x - s) s := by
  unfold cdiv
  rw [show x + s - 1 = (x - s + s - 1) + s by omega, Nat.add_div_right _ hs]
  omega

theorem cdiv_pos {x s : Nat} (hs : 0 < s) (hx : 0 < x) : 0 < cdiv x s := by
  unfold cdiv
  have := (Nat.one_le_div_iff hs).mpr (show s ≤ x + s - 1 by omega)
  omega

theorem chunkLoop_length_le (tok : Tokenizer) (tokens : List Nat) (block : Block)
    (maxTokens overlapTokens : Nat) (hov : overlapTokens < maxTokens) :
    ∀ fuel start, tokens.length ≤ start + fuel → start < tokens.length →
      (chunkLoop tok tokens block maxTokens overlapTokens fuel start).length ≤
        cdiv (tokens.length - start) (maxTokens - overlapTokens) := by
  intro fuel
  induction fuel with
  | zero => intro start h hs; omega
  | succ n ih =>
    intro start h hs
    simp only [chunkLoop]
    rw [if_pos hs]
    by_cases hf : min (start + maxTokens) tokens.length < tokens.length
    · rw [if_pos hf]
      simp only [List.length_cons]
      have hend : min (start + maxTokens) tokens.length = start + maxTokens := by omega
      have hnext : nextStart maxTokens overlapTokens start =
          start + (maxTokens - overlapTokens) := by
        simp only [nextStart]; omega
      rw [hnext]
      have hrec := ih (start + (maxTokens - overlapTokens)) (by omega) (by omega)
      have hstep : cdiv (tokens.length - start) (maxTokens - overlapTokens) =
          1 + cdiv (tokens.length - start - (maxTokens - overlapTokens))
            (maxTokens - overlapTokens) := by
        apply cdiv_step (by omega) (by omega)
      rw [hstep]
      rw [show tokens.length - (start + (maxTokens - overlapTokens)) =
          tokens.length - start - (maxTokens - overlapTokens) by omega] at hrec
      omega
    · rw [if_neg hf]
      simp only [List.length_cons, List.length_nil]
      have := cdiv_pos (s := maxTokens - overlapTokens) (by omega)
        (x := tokens.length - start) (by omega)
      omega

/-- C9 (confirmed). With valid parameters (`overlap_tokens < max_tokens`)
the sliding-window loop of `_chunk_single_block` advances the window start
by exactly `max_tokens - overlap_tokens` per iteration (the `max(..., start+1)`
floor is inactive), and the number of chunks emitted for a block whose token
sequence has length `L` is finite and at most `ceil(L / (max_tokens -
overlap_tokens)) + 1`. -/
theorem C9_progress_bound (tok : Tokenizer) (block : Block)
    (maxTokens overlapTokens : Nat) (hov : overlapTokens < maxTokens) :
    (∀ start, nextStart maxTokens overlapTokens start =
      start + (maxTokens - overlapTokens)) ∧
    (_chunk_single_block tok block maxTokens overlapTokens).length ≤
      cdiv (tok.encode block.text).length (maxTokens - overlapTokens) + 1 := by
  constructor
  · intro start; simp only [nextStart]; omega
  · unfold _chunk_single_block
    by_cases hle : (tok.encode block.text).length ≤ maxTokens
    · rw [if_pos hle]
      simp only [List.length_cons, List.length_nil]
      omega
    · rw [if_neg hle]
      have h := chunkLoop_length_le tok (tok.encode block.text) block maxTokens
        overlapTokens hov (tok.encode block.text).length 0 (by omega) (by omega)
      simp only [Nat.sub_zero] at h
      omega

theorem C9_witness :
    (_chunk_single_block charTok ⟨"abcdef".data, 1, 1, []⟩ 2 1).length ≤
      cdiv (charTok.encode "abcdef".data).length (2 - 1) + 1 :=
  (C9_progress_bound charTok ⟨"abcdef".data, 1, 1, []⟩ 2 1 (by decide)).2

theorem charTok_window (text : PyStr) (a k : Nat) :
    charTok.decode (((charTok.encode text).drop a).take k) = (text.drop a).take k := by
  simp only [charTok, ← List.map_drop, ← List.map_take, List.map_map,
    Function.comp_def, Char.ofNat_toNat, List.map_id_fun', id]

theorem adjust_eq_self_of_noNL (l : PyStr) (h : '\n' ∉ l) :
    _adjust_chunk_boundary l = l := by
  unfold _adjust_chunk_boundary
  rw [splitNL_eq_self l h]
  simp [scanIdxs]

theorem chunkLoop_cover (text : PyStr) (block : Block) (maxT ovT : Nat)
    (hsp : ∀ c ∈ text, isPySpace c = false) (hmax : 1 ≤ maxT) :
    ∀ fuel start, text.length ≤ start + fuel → start < text.length →
      ∀ p, start ≤ p → p < text.length →
        ∃ a e, a ≤ p ∧ p < e ∧ e ≤ text.length ∧
          ((text.drop a).take (e - a)) ∈
            (chunkLoop charTok (charTok.encode text) block maxT ovT fuel start).map
              ChunkD.text := by
  intro fuel
  induction fuel with
  | zero => intro start hfuel hstart; omega
  | succ n ih =>
    intro start hfuel hstart p hp1 hp2
    have hlen : (charTok.encode text).length = text.length := charTok_encode_length text
    have hsliceSp : ∀ a k, ∀ c ∈ (text.drop a).take k, isPySpace c = false :=
      fun a k c hc => hsp c (List.mem_of_mem_drop (List.mem_of_mem_take hc))
    have hsliceNL : ∀ a k, '\n' ∉ (text.drop a).take k := by
      intro a k hmem
      have := hsliceSp a k '\n' hmem
      simp [isPySpace] at this
    simp only [chunkLoop, hlen]
    rw [if_pos hstart]
    by_cases hf : min (start + maxT) text.length < text.length
    · rw [if_pos hf]
      have hE : min (start + maxT) text.length = start + maxT := by omega
      rw [hE, charTok_window text start (start + maxT - start),
        adjust_eq_self_of_noNL _ (hsliceNL _ _),
        pstrip_eq_self _ (hsliceSp _ _)]
      by_cases hp3 : p < start + maxT
      · refine ⟨start, start + maxT, hp1, hp3, by omega, ?_⟩
        simp only [List.map_cons]
        exact List.mem_cons_self _ _
      · have hnext : nextStart maxT ovT start ≤ start + maxT := by
          simp only [nextStart]; omega
        have hnext1 : start + 1 ≤ nextStart maxT ovT start := by
          simp only [nextStart]; omega
        obtain ⟨a, e, ha, hpe, he, hmem⟩ :=
          ih (nextStart maxT ovT start) (by omega) (by omega) p (by omega) hp2
        exact ⟨a, e, ha, hpe, he, by
          simp only [List.map_cons]
          exact List.mem_cons_of_mem _ hmem⟩
    · rw [if_neg hf]
      have hE : min (start + maxT) text.length = text.length := by omega
      rw [hE, charTok_window text start (text.length - start),
        pstrip_eq_self _ (hsliceSp _ _)]
      refine ⟨start, text.length, hp1, hp2, le_refl _, ?_⟩
      simp only [List.map_cons, List.map_nil]
      exact List.mem_singleton.mpr rfl

/-- C3 (corrected).  Coverage holds only when neither boundary adjustment
nor `.strip()` can remove text: for blocks whose text contains no whitespace
characters (hence no `'\n'` lines for `_adjust_chunk_boundary` to cut and
nothing for `.strip()` to remove) and `max_tokens ≥ 1`, every character
position of the block text is covered by some emitted chunk, which is a
contiguous slice of the block text.  In general a non-final chunk shortened
by boundary adjustment drops characters (see the counterexample). -/
theorem C3_cover_when_no_adjustment (b : Block) (maxT ovT : Nat)
    (hsp : ∀ c ∈ b.text, isPySpace c = false) (hmax : 1 ≤ maxT) :
    ∀ p, p < b.text.length →
      ∃ a e, a ≤ p ∧ p < e ∧ e ≤ b.text.length ∧
        ((b.text.drop a).take (e - a)) ∈
          (_chunk_single_block charTok b maxT ovT).map ChunkD.text := by
  intro p hp
  unfold _chunk_single_block
  by_cases hle : (charTok.encode b.text).length ≤ maxT
  · rw [if_pos hle]
    refine ⟨0, b.text.length, Nat.zero_le p, hp, le_refl _, ?_⟩
    simp only [List.map_cons, List.map_nil, Nat.sub_zero, List.drop_zero,
      List.take_length]
    exact List.mem_singleton.mpr rfl
  · rw [if_neg hle]
    have hlen : (charTok.encode b.text).length = b.text.length :=
      charTok_encode_length b.text
    exact chunkLoop_cover b.text b maxT ovT hsp hmax (charTok.encode b.text).length 0
      (by omega) (by omega) p (Nat.zero_le p) hp

/-- C3 counterexample: with the character tokenizer, `max_tokens = 10`,
`overlap_tokens = 2` and block text `"abc\nd.\nefghXYZ"`, boundary adjustment
cuts the first window `"abc\nd.\nefg"` back to `"abc\nd."` (6 tokens, i.e. 4
short of the window) while the next window still starts at token
`10 - 2 = 8`; the character `'e'` (position 7) appears in no emitted chunk:
it is permanently dropped, contradicting the claimed no-gap coverage. -/
theorem C3_counterexample :
    (chunk_blocks charTok [⟨"abc\nd.\nefghXYZ".data, 1, 1, []⟩] 10 2).map ChunkD.text =
        ["abc\nd.".data, "fghXYZ".data] ∧
      'e' ∈ "abc\nd.\nefghXYZ".data ∧
      ('e' ∈ "abc\nd.".data → False) ∧
      ('e' ∈ "fghXYZ".data → False) := by
  refine ⟨by decide, by decide, by decide, by decide⟩

theorem C3_witness :
    ∃ a e, a ≤ 3 ∧ 3 < e ∧ e ≤ "abcdef".data.length ∧
      (("abcdef".data.drop a).take (e - a)) ∈
        (_chunk_single_block charTok ⟨"abcdef".data, 1, 1, []⟩ 2 1).map ChunkD.text :=
  C3_cover_when_no_adjustment ⟨"abcdef".data, 1, 1, []⟩ 2 1 (by decide) (by decide)
    3 (by decide)

theorem window_inside (tokens : List Nat) (s k : Nat) :
    ((tokens.drop s).take k) <:+: tokens := by
  have h1 : ((tokens.drop s).take k) <+: tokens.drop s := List.take_prefix k (tokens.drop s)
  have h2 : ((tokens.drop s).take k) <:+: tokens.drop s := List.IsPrefix.isInfix h1
  have h3 : (tokens.drop s) <:+: tokens := List.IsSuffix.isInfix (List.drop_suffix s tokens)
  exact h2.trans h3

theorem chunkLoop_count_le (tok : Tokenizer) (tokens : List Nat) (block : Block)
    (maxT ovT : Nat)
    (H1 : ∀ ts : List Nat, ts <:+: tokens → tok.encode (tok.decode ts) = ts)
    (H2 : ∀ s t : PyStr, s <+: t → (tok.encode s).length ≤ (tok.encode t).length) :
    ∀ fuel start, ∀ c ∈ chunkLoop tok tokens block maxT ovT fuel start,
      c.token_count ≤ maxT := by
  intro fuel
  induction fuel with
  | zero => intro start c hc; simp [chunkLoop] at hc
  | succ n ih =>
    intro start c hc
    simp only [chunkLoop] at hc
    by_cases hs : start < tokens.length
    · rw [if_pos hs] at hc
      have hwinlen : ((tokens.drop start).take
          (min (start + maxT) tokens.length - start)).length ≤ maxT := by
        simp only [List.length_take, List.length_drop]
        omega
      by_cases hf : min (start + maxT) tokens.length < tokens.length
      · rw [if_pos hf] at hc
        rcases List.mem_cons.mp hc with rfl | htail
        · simp only
          have hpre := adjust_isPre (tok.decode ((tokens.drop start).take
            (min (start + maxT) tokens.length - start)))
          have h2 := H2 _ _ hpre
          rw [H1 _ (window_inside tokens start _)] at h2
          exact le_trans h2 hwinlen
        · exact ih _ c htail
      · rw [if_neg hf] at hc
        rcases List.mem_singleton.mp hc with rfl
        simpa using hwinlen
    · rw [if_neg hs] at hc
      simp at hc

/-- C5 (confirmed).  For any tokenizer whose re-encoding round-trips the
block's token windows (`encode (decode ts) = ts` for infixes of the block's
token sequence) and never yields more tokens for a string prefix than for
the whole string, every chunk emitted by `chunk_blocks` — not just the
non-final ones, so in particular all chunks except possibly the last of a
block — has `token_count ≤ max_tokens`; no lower bound on chunk size is
imposed anywhere. -/
theorem C5_size_bound (tok : Tokenizer) (blocks : List Block) (maxT ovT : Nat)
    (_hmax : 1 ≤ maxT) (_hov : ovT < maxT)
    (H1 : ∀ b ∈ blocks, ∀ ts : List Nat, ts <:+: tok.encode b.text →
      tok.encode (tok.decode ts) = ts)
    (H2 : ∀ s t : PyStr, s <+: t → (tok.encode s).length ≤ (tok.encode t).length) :
    ∀ c ∈ chunk_blocks tok blocks maxT ovT, c.token_count ≤ maxT := by
  intro c hc
  unfold chunk_blocks at hc
  rw [List.mem_flatMap] at hc
  obtain ⟨b, hb, hcb⟩ := hc
  by_cases hskip : (pstrip b.text).isEmpty
  · rw [if_pos hskip] at hcb; simp at hcb
  · rw [if_neg hskip] at hcb
    unfold _chunk_single_block at hcb
    by_cases hle : (tok.encode b.text).length ≤ maxT
    · rw [if_pos hle] at hcb
      rcases List.mem_singleton.mp hcb with rfl
      simpa using hle
    · rw [if_neg hle] at hcb
      exact chunkLoop_count_le tok (tok.encode b.text) b maxT ovT (H1 b hb) H2 _ _ c hcb

theorem charTok_H1 (text : PyStr) (ts : List Nat)
    (h : ts <:+: charTok.encode text) :
    charTok.encode (charTok.decode ts) = ts := by
  simp only [charTok, List.map_map]
  have hmem : ∀ x ∈ ts, Char.toNat (Char.ofNat x) = x := by
    intro x hx
    have hx2 : x ∈ charTok.encode text := (by exact h.subset hx)
    simp only [charTok, List.mem_map] at hx2
    obtain ⟨ch, _, rfl⟩ := hx2
    rw [Char.ofNat_toNat]
  calc ts.map (fun x => Char.toNat (Char.ofNat x)) = ts.map id :=
        List.map_congr_left hmem
    _ = ts := List.map_id ts

theorem charTok_H2 (s t : PyStr) (h : s <+: t) :
    (charTok.encode s).length ≤ (charTok.encode t).length := by
  simpa [charTok] using h.length_le

theorem C5_witness :
    (⟨"abc\nd.".data, 6, 1, 1, []⟩ : ChunkD).token_count ≤ 10 :=
  C5_size_bound charTok [⟨"abc\nd.\nefghXYZ".data, 1, 1, []⟩] 10 2 (by decide)
    (by decide) (fun b _ ts hts => charTok_H1 b.text ts hts) charTok_H2
    ⟨"abc\nd.".data, 6, 1, 1, []⟩ (by decide)

/-- C8 (confirmed).  Characterization of the boundary-adjustment step:
(1) `_adjust_chunk_boundary` returns either the original decoded window or
the join of a line-slice `lines[:j]` obtained within the backward scan
(dropping at most 4 of the trailing lines, i.e. staying inside the 5-line
lookback, and never cutting at line index 0) whose last kept line, stripped,
is blank or ends in `.`, `!`, `?` or `:`; the bullet-pattern branch only
ever cuts before a bullet line when that predecessor line qualifies;
(2) when no line in the scanned window is a sentence/blank boundary and
none matches a bullet pattern, the original token-based cut is kept;
(3) every non-final window of `_chunk_single_block`'s loop stores the
boundary-adjusted text with `token_count` obtained by re-encoding exactly
that adjusted text. -/
theorem C8_boundary_scan :
    (∀ ct : PyStr,
       _adjust_chunk_boundary ct = ct ∨
       ∃ j, 1 ≤ j ∧ j ≤ (splitNL ct).length ∧ (splitNL ct).length - j ≤ 4 ∧
         _adjust_chunk_boundary ct = joinNL ((splitNL ct).take j) ∧
         goodCut (pstrip ((splitNL ct).getD (j - 1) [])) = true) ∧
    (∀ ct : PyStr,
       (∀ i ∈ scanIdxs (splitNL ct).length,
          goodCut (pstrip ((splitNL ct).getD i [])) = false ∧
          bulletMatch (pstrip ((splitNL ct).getD i [])) = false) →
       _adjust_chunk_boundary ct = ct) ∧
    (∀ (tok : Tokenizer) (tokens : List Nat) (block : Block)
       (maxT ovT fuel start : Nat), start + maxT < tokens.length →
       ∃ rest, chunkLoop tok tokens block maxT ovT (fuel + 1) start =
         ⟨pstrip (_adjust_chunk_boundary
             (tok.decode ((tokens.drop start).take maxT))),
          (tok.encode (_adjust_chunk_boundary
             (tok.decode ((tokens.drop start).take maxT)))).length,
          block.page_start, block.page_end, block.heading_path⟩ :: rest) := by
  refine ⟨?_, ?_, ?_⟩
  · intro ct
    rcases h : (scanIdxs (splitNL ct).length).findSome? (adjStep (splitNL ct)) with _ | b
    · left; simp only [_adjust_chunk_boundary, h]
    · right
      obtain ⟨i, hi, hstep⟩ := List.exists_of_findSome?_eq_some h
      obtain ⟨hi1, hi2, hi3⟩ := scanIdxs_mem hi
      rcases adjStep_some hstep with ⟨hg, rfl, _⟩ | ⟨_, _, _, hpunct, rfl, _⟩
      · refine ⟨i + 1, by omega, by omega, by omega, ?_, ?_⟩
        · simp only [_adjust_chunk_boundary, h]
        · simpa using hg
      · refine ⟨i, by omega, by omega, by omega, ?_, ?_⟩
        · simp only [_adjust_chunk_boundary, h]
        · simp only [goodCut, Bool.or_eq_true]
          exact Or.inr hpunct
  · intro ct hno
    have hfs : (scanIdxs (splitNL ct).length).findSome? (adjStep (splitNL ct)) = none :=
      List.findSome?_eq_none_iff.mpr
        (fun i hi => adjStep_none (hno i hi).1 (hno i hi).2)
    simp only [_adjust_chunk_boundary, hfs]
  · intro tok tokens block maxT ovT fuel start hlt
    refine ⟨chunkLoop tok tokens block maxT ovT fuel
      (nextStart maxT ovT start), ?_⟩
    simp only [chunkLoop]
    have hmin : min (start + maxT) tokens.length = start + maxT := by omega
    rw [hmin, if_pos (show start < tokens.length by omega), if_pos hlt,
      show start + maxT - start = maxT by omega]

theorem C8_witness :
    ∃ rest, chunkLoop charTok (charTok.encode "abc\nd.\nefghXYZ".data)
        ⟨[], 1, 1, []⟩ 10 2 14 0 = ⟨"abc\nd.".data, 6, 1, 1, []⟩ :: rest := by
  obtain ⟨rest, hr⟩ := C8_boundary_scan.2.2 charTok
    (charTok.encode "abc\nd.\nefghXYZ".data) ⟨[], 1, 1, []⟩ 10 2 13 0 (by decide)
  exact ⟨rest, hr.trans (congrArg (fun c => c :: rest) (by decide))⟩

/-- Python `str.lower()` (ASCII model). -/
def pyLower (s : PyStr) : PyStr := s.map Char.toLower

/-- A `\w` word character (`[a-zA-Z0-9_]`, ASCII model). -/
def isWordChar (c : Char) : Bool := c.isAlphanum || (c == '_')

/-- Maximal runs of word characters, with the current (reversed) run carried
as an accumulator; realizes `re.findall(r'\b\w+\b', ...)`. -/
def wordRunsAux : PyStr → PyStr → List PyStr
  | [], acc => if acc.isEmpty then [] else [acc.reverse]
  | c :: rest, acc =>
    if isWordChar c then wordRunsAux rest (c :: acc)
    else if acc.isEmpty then wordRunsAux rest []
    else acc.reverse :: wordRunsAux rest []

/-- Embedding of `DocumentRetriever._tokenize`:
`re.findall(r'\b\w+\b', text.lower())`. -/
def _tokenize (s : PyStr) : List PyStr := wordRunsAux (pyLower s) []

/-- Python's substring operator `needle in hay` on strings. -/
def pyIn (needle hay : PyStr) : Bool := decide (needle <:+: hay)

/-- Candidate record of `document_retriever.py` (`DocumentChunk` dataclass);
the `embedding` field is omitted — no scoring stage reads it.  Scores are
embedded as exact rationals. -/
structure DocumentChunk where
  chunk_id : PyStr
  doc_id : PyStr
  doc_title : PyStr
  folder : PyStr
  text : PyStr
  page_start : Nat
  page_end : Nat
  char_start : Nat
  char_end : Nat
  n_tokens : Nat
  vector_score : ℚ
  bm25_score : ℚ
  hybrid_score : ℚ
  rerank_score : ℚ
deriving DecidableEq

/-- `candidates.sort(key=..., reverse=True)`: Python's stable descending
sort by a numeric key, realized by the (stable) merge sort. -/
def sortByDesc {α : Type} (key : α → ℚ) (l : List α) : List α :=
  l.mergeSort (fun a b => decide (key b ≤ key a))

/-- The `seen_chunks` loop of `vector_search_with_filter` (lines 173-179):
keep the first occurrence of every `chunk_id`, in fetch order. -/
def dedupSeen (seen : List PyStr) : List DocumentChunk → List DocumentChunk
  | [] => []
  | c :: rest =>
    if c.chunk_id ∈ seen then dedupSeen seen rest
    else c :: dedupSeen (c.chunk_id :: seen) rest

/-- Deduplication after the per-folder fan-out of
`vector_search_with_filter`. -/
def dedup_candidates (cs : List DocumentChunk) : List DocumentChunk :=
  dedupSeen [] cs

/-- The merge tail of `vector_search_with_filter` (lines 173-182): dedup by
`chunk_id` keeping the first occurrence, sort descending by `vector_score`,
slice to `k`. -/
def merge_fetched (cs : List DocumentChunk) (k : Nat) : List DocumentChunk :=
  (sortByDesc (fun c => c.vector_score) (dedup_candidates cs)).take k

/-- `avg_doc_length = sum(doc_lengths) / len(doc_lengths) if doc_lengths
else 1`. -/
def bm25AvgLen (cs : List DocumentChunk) : ℚ :=
  if cs.isEmpty then 1
  else (cs.map (fun c => (c.n_tokens : ℚ))).sum / (cs.length : ℚ)

/-- `term_doc_freq[term]`: number of candidates whose tokenized text
contains `term`. -/
def bm25Df (cs : List DocumentChunk) (term : PyStr) : Nat :=
  (cs.filter (fun c => (_tokenize (pyLower c.text)).contains term)).length

/-- One term's BM25 contribution (`k1 = 1.5`, `b = 0.75`; `math.log` is the
abstract parameter `log`); only evaluated when `tf > 0` and `avg ≠ 0`. -/
def bm25TermScore (log : ℚ → ℚ) (n df : Nat) (avg : ℚ) (ntokens tf : Nat) : ℚ :=
  let idf : ℚ :=
    if 0 < (n : ℚ) - (df : ℚ) + 1/2 ∧ 0 < (df : ℚ) + 1/2 then
      log (((n : ℚ) - (df : ℚ) + 1/2) / ((df : ℚ) + 1/2))
    else 0
  idf * ((tf : ℚ) * (3/2 + 1)) /
    ((tf : ℚ) + 3/2 * (1 - 3/4 + 3/4 * (ntokens : ℚ) / avg))

/-- The inner `for term in query_terms` accumulation for one candidate.
A term absent from the candidate contributes nothing; for a present term the
source divides `chunk.n_tokens` by `avg_doc_length`, which raises
`ZeroDivisionError` when the average document length is zero. -/
def bm25SumGo (log : ℚ → ℚ) (ctoks : List PyStr) (n : Nat) (df : PyStr → Nat)
    (avg : ℚ) (ntokens : Nat) (acc : ℚ) : List PyStr → Except String ℚ
  | [] => .ok acc
  | t :: ts =>
    if ctoks.count t = 0 then bm25SumGo log ctoks n df avg ntokens acc ts
    else if avg = 0 then .error "ZeroDivisionError"
    else bm25SumGo log ctoks n df avg ntokens
      (acc + bm25TermScore log n (df t) avg ntokens (ctoks.count t)) ts

/-- `Except`-valued `map` (explicit recursion for easy induction). -/
def mapE {α β : Type} (f : α → Except String β) : List α → Except String (List β)
  | [] => .ok []
  | a :: as =>
    match f a with
    | .error e => .error e
    | .ok b =>
      match mapE f as with
      | .error e => .error e
      | .ok bs => .ok (b :: bs)

/-- Embedding of `DocumentRetriever._calculate_bm25_scores` (mutation of
`chunk.bm25_score` is modelled by returning the updated candidate list). -/
def _calculate_bm25_scores (log : ℚ → ℚ) (query_terms : List PyStr)
    (candidates : List DocumentChunk) : Except String (List DocumentChunk) :=
  mapE (fun c =>
    match bm25SumGo log (_tokenize (pyLower c.text)) candidates.length
        (bm25Df candidates) (bm25AvgLen candidates) c.n_tokens 0 query_terms with
    | .error e => .error e
    | .ok s => .ok { c with bm25_score :=
        (if query_terms.isEmpty then 0
         else max 0 (s / (query_terms.length : ℚ))) }) candidates

/-- The per-candidate scoring of `hybrid_search`: weighted combination
then the two multiplicative boosts. -/
def applyHybridScore (query : PyStr) (query_terms : List PyStr)
    (c : DocumentChunk) : DocumentChunk :=
  let base : ℚ := 7/10 * c.vector_score + 3/10 * c.bm25_score
  let h1 : ℚ := if pyIn (pyLower query) (pyLower c.text) then base * (12/10) else base
  let h2 : ℚ :=
    if query_terms.any (fun t => pyIn t (pyLower c.doc_title)) then h1 * (11/10) else h1
  { c with hybrid_score := h2 }

/-- Embedding of `DocumentRetriever.hybrid_search`. -/
def hybrid_search (log : ℚ → ℚ) (query : PyStr)
    (candidates : List DocumentChunk) : Except String (List DocumentChunk) :=
  match _calculate_bm25_scores log (_tokenize (pyLower query)) candidates with
  | .error e => .error e
  | .ok cs => .ok (sortByDesc (fun c => c.hybrid_score)
      (cs.map (applyHybridScore query (_tokenize (pyLower query)))))

/-- Embedding of `DocumentRetriever.rerank_candidates`; the cross-encoder
`predict` call is the abstract pairwise scorer `model` (per-pair, which is
observationally the batch call: any failure of the call is a failure of the
stage). No exception handling is present in the source. -/
def rerank_candidates (model : PyStr → PyStr → Except String ℚ) (query : PyStr)
    (candidates : List DocumentChunk) (top_k : Nat) :
    Except String (List DocumentChunk) :=
  if candidates.isEmpty then .ok []
  else
    match mapE (fun c => model query c.text) candidates with
    | .error e => .error e
    | .ok scores => .ok ((sortByDesc (fun c => c.rerank_score)
        (List.zipWith (fun c s => { c with rerank_score := s }) candidates scores)).take
          top_k)

/-- External collaborators of the retrieval orchestrator: the (routed,
folder-filtered) vector search, the cross-encoder, and `math.log`. -/
structure RetrievalEnv where
  fetch : PyStr → Nat → Except String (List DocumentChunk)
  rerankModel : PyStr → PyStr → Except String ℚ
  log : ℚ → ℚ

/-- Embedding of `DocumentRetriever.retrieve_documents`: FETCH, empty check,
optional HYBRID, optional RERANK (or sort by the appropriate score and
slice).  The source wraps none of the post-FETCH stages in `try/except`, so
their failures propagate — visible here as `.error` results. -/
def retrieve_documents (env : RetrievalEnv) (query : PyStr)
    (k_candidates top_passages : Nat) (use_hybrid use_reranking : Bool) :
    Except String (List DocumentChunk) :=
  match env.fetch query k_candidates with
  | .error e => .error e
  | .ok candidates =>
    if candidates.isEmpty then .ok []
    else
      match (if use_hybrid then hybrid_search env.log query candidates
             else .ok candidates) with
      | .error e => .error e
      | .ok cs =>
        if use_reranking then rerank_candidates env.rerankModel query cs top_passages
        else .ok ((sortByDesc (fun c =>
            if use_hybrid then c.hybrid_score else c.vector_score) cs).take
              top_passages)

/-- C2 (corrected).  A failure of the reranker's pairwise-scoring call is
NOT caught by the retrieval orchestrator: `retrieve_documents` propagates
the exception to its caller instead of falling back to the previous stage's
ordering.  (Only the per-folder vector-search calls are wrapped in
`try/except` in the source; `rerank_candidates` and the orchestrator body
have no handler.) -/
theorem C2_rerank_failure_propagates (env : RetrievalEnv) (query : PyStr)
    (k top : Nat) (cs : List DocumentChunk) (e : String)
    (hf : env.fetch query k = .ok cs) (hne : cs.isEmpty = false)
    (hr : mapE (fun c => env.rerankModel query c.text) cs = .error e) :
    retrieve_documents env query k top false true = .error e := by
  cases cs with
  | nil => simp at hne
  | cons c rest =>
    unfold retrieve_documents
    rw [hf]
    simp only [List.isEmpty_cons, Bool.false_eq_true, if_false]
    unfold rerank_candidates
    simp only [List.isEmpty_cons, Bool.false_eq_true, if_false]
    rw [hr]
    rw [if_pos trivial]

/-- C2 counterexample: a concrete environment whose reranker raises.  The
orchestrator returns the error rather than the previous stage's ordering
(which would have been the vector ordering `[c]` sliced to `top_k`). -/
theorem C2_counterexample :
    retrieve_documents
        ⟨fun _ _ => .ok [⟨"x".data, [], "T".data, [], "body".data,
            0, 0, 0, 0, 3, 1/2, 0, 0, 0⟩],
         fun _ _ => .error "model failure", fun x => x⟩
        "q".data 20 5 false true = .error "model failure" ∧
      retrieve_documents
        ⟨fun _ _ => .ok [⟨"x".data, [], "T".data, [], "body".data,
            0, 0, 0, 0, 3, 1/2, 0, 0, 0⟩],
         fun _ _ => .error "model failure", fun x => x⟩
        "q".data 20 5 false true ≠
        .ok [⟨"x".data, [], "T".data, [], "body".data,
            0, 0, 0, 0, 3, 1/2, 0, 0, 0⟩] := by
  refine ⟨rfl, fun h => ?_⟩
  exact Except.noConfusion h

theorem C2_witness :
    retrieve_documents
        ⟨fun _ _ => .ok [⟨"y".data, [], "U".data, [], "text".data,
            0, 0, 0, 0, 2, 1/4, 0, 0, 0⟩],
         fun _ _ => .error "boom", fun x => x⟩
        "query".data 10 3 false true = .error "boom" :=
  C2_rerank_failure_propagates
    ⟨fun _ _ => .ok [⟨"y".data, [], "U".data, [], "text".data,
        0, 0, 0, 0, 2, 1/4, 0, 0, 0⟩],
     fun _ _ => .error "boom", fun x => x⟩
    "query".data 10 3
    [⟨"y".data, [], "U".data, [], "text".data, 0, 0, 0, 0, 2, 1/4, 0, 0, 0⟩]
    "boom" rfl (by decide) rfl

theorem dedupSeen_not_in_seen :
    ∀ (cs : List DocumentChunk) (seen : List PyStr),
      ∀ c' ∈ dedupSeen seen cs, c'.chunk_id ∉ seen := by
  intro cs
  induction cs with
  | nil => intro seen c' hc'; simp [dedupSeen] at hc'
  | cons c rest ih =>
    intro seen c' hc'
    unfold dedupSeen at hc'
    by_cases hmem : c.chunk_id ∈ seen
    · rw [if_pos hmem] at hc'
      exact ih seen c' hc'
    · rw [if_neg hmem] at hc'
      rcases List.mem_cons.mp hc' with rfl | htail
      · exact hmem
      · have := ih (c.chunk_id :: seen) c' htail
        exact fun hs => this (List.mem_cons_of_mem _ hs)

theorem dedupSeen_ids_nodup :
    ∀ (cs : List DocumentChunk) (seen : List PyStr),
      ((dedupSeen seen cs).map DocumentChunk.chunk_id).Nodup := by
  intro cs
  induction cs with
  | nil => intro seen; simp [dedupSeen]
  | cons c rest ih =>
    intro seen
    unfold dedupSeen
    by_cases hmem : c.chunk_id ∈ seen
    · rw [if_pos hmem]; exact ih seen
    · rw [if_neg hmem]
      simp only [List.map_cons, List.nodup_cons]
      refine ⟨?_, ih (c.chunk_id :: seen)⟩
      intro hcontra
      obtain ⟨c', hc', hid⟩ := List.mem_map.mp hcontra
      exact dedupSeen_not_in_seen rest (c.chunk_id :: seen) c' hc'
        (hid ▸ List.mem_cons_self _ _)

theorem dedupSeen_find :
    ∀ (cs : List DocumentChunk) (seen : List PyStr),
      ∀ c' ∈ dedupSeen seen cs,
        cs.find? (fun x => x.chunk_id == c'.chunk_id) = some c' := by
  intro cs
  induction cs with
  | nil => intro seen c' hc'; simp [dedupSeen] at hc'
  | cons c rest ih =>
    intro seen c' hc'
    unfold dedupSeen at hc'
    by_cases hmem : c.chunk_id ∈ seen
    · rw [if_pos hmem] at hc'
      have hne : c.chunk_id ≠ c'.chunk_id := by
        intro he
        exact dedupSeen_not_in_seen rest seen c' hc' (he ▸ hmem)
      rw [List.find?_cons_of_neg _ (by simpa using hne), ih seen c' hc']
    · rw [if_neg hmem] at hc'
      rcases List.mem_cons.mp hc' with rfl | htail
      · rw [List.find?_cons_of_pos _ (by simp)]
      · have hnotin := dedupSeen_not_in_seen rest (c.chunk_id :: seen) c' htail
        have hne : c.chunk_id ≠ c'.chunk_id := by
          intro he
          exact hnotin (he ▸ List.mem_cons_self _ _)
        rw [List.find?_cons_of_neg _ (by simpa using hne),
          ih (c.chunk_id :: seen) c' htail]

theorem dedupSeen_covers :
    ∀ (cs : List DocumentChunk) (seen : List PyStr),
      ∀ c ∈ cs, c.chunk_id ∉ seen →
        ∃ c' ∈ dedupSeen seen cs, c'.chunk_id = c.chunk_id := by
  intro cs
  induction cs with
  | nil => intro seen c hc; simp at hc
  | cons c0 rest ih =>
    intro seen c hc hnotin
    unfold dedupSeen
    by_cases hmem : c0.chunk_id ∈ seen
    · rw [if_pos hmem]
      rcases List.mem_cons.mp hc with rfl | htail
      · exact absurd hmem hnotin
      · exact ih seen c htail hnotin
    · rw [if_neg hmem]
      rcases List.mem_cons.mp hc with rfl | htail
      · exact ⟨c, List.mem_cons_self _ _, rfl⟩
      · by_cases hid : c.chunk_id = c0.chunk_id
        · exact ⟨c0, List.mem_cons_self _ _, hid.symm⟩
        · obtain ⟨c', hc', he⟩ := ih (c0.chunk_id :: seen) c htail
            (by simp [hid, hnotin])
          exact ⟨c', List.mem_cons_of_mem _ hc', he⟩

/-- C1 (corrected).  After the FETCH-stage merge of `vector_search_with_filter`
the candidate list holds exactly one candidate per distinct `chunk_id`
(uniqueness survives the subsequent sort and `[:k]` slice), but the survivor
of a duplicate group is the FIRST instance encountered in fan-out order —
not the one with the higher `vector_score`: every surviving candidate is
exactly what `find?` (first match) returns on the fetched list, and every
fetched `chunk_id` is represented. -/
theorem C1_dedup_keeps_first (cs : List DocumentChunk) (k : Nat) :
    ((merge_fetched cs k).map DocumentChunk.chunk_id).Nodup ∧
    (∀ c' ∈ dedup_candidates cs,
      cs.find? (fun x => x.chunk_id == c'.chunk_id) = some c') ∧
    (∀ c ∈ cs, ∃ c' ∈ dedup_candidates cs, c'.chunk_id = c.chunk_id) := by
  refine ⟨?_, fun c' hc' => dedupSeen_find cs [] c' hc',
    fun c hc => dedupSeen_covers cs [] c hc (by simp)⟩
  unfold merge_fetched
  have hperm : List.Perm
      ((sortByDesc (fun c => c.vector_score) (dedup_candidates cs)).map
        DocumentChunk.chunk_id)
      ((dedup_candidates cs).map DocumentChunk.chunk_id) :=
    (List.mergeSort_perm _ _).map _
  have hnodup : ((sortByDesc (fun c => c.vector_score)
      (dedup_candidates cs)).map DocumentChunk.chunk_id).Nodup :=
    hperm.nodup_iff.mpr (dedupSeen_ids_nodup cs [])
  rw [List.map_take]
  exact List.Nodup.sublist (List.take_sublist _ _) hnodup

/-- C1 counterexample: two fetched candidates share `chunk_id = "abc"` with
`vector_score` 0.3 (first, from the first folder) and 0.7 (second).  The
merged set keeps the 0.3 instance — the first encountered — not the
higher-scored one as claimed. -/
theorem C1_counterexample :
    merge_fetched
        [⟨"abc".data, [], [], [], "t1".data, 0, 0, 0, 0, 5, 3/10, 0, 0, 0⟩,
         ⟨"abc".data, [], [], [], "t2".data, 0, 0, 0, 0, 5, 7/10, 0, 0, 0⟩] 20 =
      [⟨"abc".data, [], [], [], "t1".data, 0, 0, 0, 0, 5, 3/10, 0, 0, 0⟩] ∧
    (3/10 : ℚ) ≠ 7/10 := by
  constructor
  · have hd : dedup_candidates
        [⟨"abc".data, [], [], [], "t1".data, 0, 0, 0, 0, 5, 3/10, 0, 0, 0⟩,
         ⟨"abc".data, [], [], [], "t2".data, 0, 0, 0, 0, 5, 7/10, 0, 0, 0⟩] =
        [⟨"abc".data, [], [], [], "t1".data, 0, 0, 0, 0, 5, 3/10, 0, 0, 0⟩] := rfl
    unfold merge_fetched
    rw [hd]
    simp [sortByDesc]
  · norm_num

theorem C1_witness :
    [(⟨"abc".data, [], [], [], "t1".data, 0, 0, 0, 0, 5, 3/10, 0, 0, 0⟩ : DocumentChunk),
     ⟨"abc".data, [], [], [], "t2".data, 0, 0, 0, 0, 5, 7/10, 0, 0, 0⟩].find?
        (fun x => x.chunk_id ==
          (⟨"abc".data, [], [], [], "t1".data, 0, 0, 0, 0, 5, 3/10, 0, 0, 0⟩ :
            DocumentChunk).chunk_id) =
      some ⟨"abc".data, [], [], [], "t1".data, 0, 0, 0, 0, 5, 3/10, 0, 0, 0⟩ :=
  (C1_dedup_keeps_first
    [⟨"abc".data, [], [], [], "t1".data, 0, 0, 0, 0, 5, 3/10, 0, 0, 0⟩,
     ⟨"abc".data, [], [], [], "t2".data, 0, 0, 0, 0, 5, 7/10, 0, 0, 0⟩] 20).2.1
    ⟨"abc".data, [], [], [], "t1".data, 0, 0, 0, 0, 5, 3/10, 0, 0, 0⟩
    (by
      have hd : dedup_candidates
          [⟨"abc".data, [], [], [], "t1".data, 0, 0, 0, 0, 5, 3/10, 0, 0, 0⟩,
           ⟨"abc".data, [], [], [], "t2".data, 0, 0, 0, 0, 5, 7/10, 0, 0, 0⟩] =
          [⟨"abc".data, [], [], [], "t1".data, 0, 0, 0, 0, 5, 3/10, 0, 0, 0⟩] := rfl
      rw [hd]
      exact List.mem_singleton.mpr rfl)

theorem sortByDesc_trans {α : Type} (key : α → ℚ) : ∀ (a b c : α),
    decide (key b ≤ key a) = true → decide (key c ≤ key b) = true →
    decide (key c ≤ key a) = true := by
  intro a b c hab hbc
  simp only [decide_eq_true_eq] at hab hbc ⊢
  exact le_trans hbc hab

theorem sortByDesc_total {α : Type} (key : α → ℚ) : ∀ (a b : α),
    (decide (key b ≤ key a) || decide (key a ≤ key b)) = true := by
  intro a b
  simp only [Bool.or_eq_true, decide_eq_true_eq]
  exact le_total (key b) (key a)

theorem sortByDesc_sorted {α : Type} (key : α → ℚ) (l : List α) :
    (sortByDesc key l).Pairwise (fun a b => key b ≤ key a) := by
  have h := @List.sorted_mergeSort _ (fun a b => decide (key b ≤ key a))
    (sortByDesc_trans key) (sortByDesc_total key) l
  exact h.imp (fun hab => of_decide_eq_true hab)

theorem sortByDesc_perm {α : Type} (key : α → ℚ) (l : List α) :
    List.Perm (sortByDesc key l) l :=
  List.mergeSort_perm l _

/-- Stability of the descending sort: for every key value, the candidates
carrying that exact key appear in the output in their input order. -/
theorem sortByDesc_stable_filter {α : Type} (key : α → ℚ) (l : List α) (x : ℚ) :
    (sortByDesc key l).filter (fun a => decide (key a = x)) =
      l.filter (fun a => decide (key a = x)) := by
  have hpair : (l.filter (fun a => decide (key a = x))).Pairwise
      (fun a b => decide (key b ≤ key a) = true) := by
    apply List.pairwise_of_forall_mem_list
    intro a ha b hb
    have hA := (List.mem_filter.mp ha).2
    have hB := (List.mem_filter.mp hb).2
    simp only [decide_eq_true_eq] at hA hB ⊢
    rw [hA, hB]
  have hsub : List.Sublist (l.filter (fun a => decide (key a = x)))
      (sortByDesc key l) :=
    List.sublist_mergeSort (sortByDesc_trans key) (sortByDesc_total key) hpair
      (List.filter_sublist l)
  have h1 := hsub.filter (fun a => decide (key a = x))
  rw [List.filter_filter] at h1
  simp only [Bool.and_self] at h1
  have hperm : List.Perm ((sortByDesc key l).filter (fun a => decide (key a = x)))
      (l.filter (fun a => decide (key a = x))) :=
    (sortByDesc_perm key l).filter _
  exact (h1.eq_of_length hperm.length_eq.symm).symm

/-- C6 (confirmed).  (1) Every candidate's hybrid score is
`(0.7 * vector_score + 0.3 * bm25_score)`, multiplied by 1.2 exactly when
the lowercased query occurs verbatim in the lowercased text and
(independently, multiplicatively) by 1.1 exactly when some lowercase query
token occurs in the lowercased title; (2) on success `hybrid_search` returns
the BM25-scored candidates rescored this way, sorted descending by
`hybrid_score`, as a permutation whose equal-score groups keep the input
order (stability); (3) the spec's worked example: `vector_score = 0.5`,
`bm25_score = 0.5`, exact phrase match, no title match gives
`hybrid_score = 0.6 = 3/5`. -/
theorem C6_hybrid_formula :
    (∀ (query : PyStr) (qterms : List PyStr) (c : DocumentChunk),
       (applyHybridScore query qterms c).hybrid_score =
         (7/10 * c.vector_score + 3/10 * c.bm25_score) *
         (if pyIn (pyLower query) (pyLower c.text) then 12/10 else 1) *
         (if qterms.any (fun t => pyIn t (pyLower c.doc_title)) then 11/10 else 1)) ∧
    (∀ (log : ℚ → ℚ) (query : PyStr) (cs out : List DocumentChunk),
       hybrid_search log query cs = .ok out →
       ∃ cs', _calculate_bm25_scores log (_tokenize (pyLower query)) cs = .ok cs' ∧
         out.Pairwise (fun a b => b.hybrid_score ≤ a.hybrid_score) ∧
         List.Perm out
           (cs'.map (applyHybridScore query (_tokenize (pyLower query)))) ∧
         (∀ x : ℚ, out.filter (fun c => decide (c.hybrid_score = x)) =
           (cs'.map (applyHybridScore query (_tokenize (pyLower query)))).filter
             (fun c => decide (c.hybrid_score = x)))) ∧
    (∀ (query : PyStr) (qterms : List PyStr) (c : DocumentChunk),
       c.vector_score = 1/2 → c.bm25_score = 1/2 →
       pyIn (pyLower query) (pyLower c.text) = true →
       qterms.any (fun t => pyIn t (pyLower c.doc_title)) = false →
       (applyHybridScore query qterms c).hybrid_score = 3/5) := by
  refine ⟨?_, ?_, ?_⟩
  · intro query qterms c
    simp only [applyHybridScore]
    by_cases hp : pyIn (pyLower query) (pyLower c.text) <;>
      by_cases ht : qterms.any (fun t => pyIn t (pyLower c.doc_title)) <;>
      simp only [hp, ht, if_true, if_false, Bool.false_eq_true] <;> ring
  · intro log query cs out h
    unfold hybrid_search at h
    cases hbm : _calculate_bm25_scores log (_tokenize (pyLower query)) cs with
    | error e => rw [hbm] at h; exact absurd h (by simp)
    | ok cs' =>
      rw [hbm] at h
      simp only [Except.ok.injEq] at h
      subst h
      refine ⟨cs', rfl, ?_, ?_, ?_⟩
      · exact sortByDesc_sorted (fun c : DocumentChunk => c.hybrid_score) _
      · exact sortByDesc_perm (fun c : DocumentChunk => c.hybrid_score) _
      · intro x
        exact sortByDesc_stable_filter (fun c : DocumentChunk => c.hybrid_score) _ x
  · intro query qterms c hv hb hp ht
    simp only [applyHybridScore, hv, hb, hp, ht, if_true, Bool.false_eq_true,
      if_false]
    norm_num

theorem C6_witness :
    (applyHybridScore "q t".data (_tokenize "q t".data)
        ⟨"x".data, [], "".data, [], "xx q t yy".data,
          0, 0, 0, 0, 3, 1/2, 1/2, 0, 0⟩).hybrid_score = 3/5 :=
  C6_hybrid_formula.2.2 "q t".data (_tokenize "q t".data)
    ⟨"x".data, [], "".data, [], "xx q t yy".data, 0, 0, 0, 0, 3, 1/2, 1/2, 0, 0⟩
    rfl rfl (by decide) (by decide)

theorem mapE_ok_mem {α β : Type} {f : α → Except String β} :
    ∀ {l : List α} {out : List β}, mapE f l = .ok out →
      ∀ b ∈ out, ∃ a ∈ l, f a = .ok b := by
  intro l
  induction l with
  | nil =>
    intro out h b hb
    simp only [mapE, Except.ok.injEq] at h
    subst h
    simp at hb
  | cons a as ih =>
    intro out h b hb
    unfold mapE at h
    cases hfa : f a with
    | error e => rw [hfa] at h; simp at h
    | ok b0 =>
      rw [hfa] at h
      cases hm : mapE f as with
      | error e => rw [hm] at h; simp at h
      | ok bs =>
        rw [hm] at h
        simp only [Except.ok.injEq] at h
        subst h
        rcases List.mem_cons.mp hb with rfl | htail
        · exact ⟨a, List.mem_cons_self _ _, hfa⟩
        · obtain ⟨a', ha', hfa'⟩ := ih hm b htail
          exact ⟨a', List.mem_cons_of_mem _ ha', hfa'⟩

/-- Every successfully scored candidate of `_calculate_bm25_scores` is a
fetched candidate whose `bm25_score` was set to the normalized, clamped
term-score sum. -/
theorem calc_bm25_elem {log : ℚ → ℚ} {qterms : List PyStr}
    {cs out : List DocumentChunk}
    (h : _calculate_bm25_scores log qterms cs = .ok out) :
    ∀ c' ∈ out, ∃ c ∈ cs, ∃ s : ℚ,
      bm25SumGo log (_tokenize (pyLower c.text)) cs.length (bm25Df cs)
        (bm25AvgLen cs) c.n_tokens 0 qterms = .ok s ∧
      c' = { c with bm25_score :=
        (if qterms.isEmpty then 0 else max 0 (s / (qterms.length : ℚ))) } := by
  unfold _calculate_bm25_scores at h
  intro c' hc'
  obtain ⟨c, hc, hfc⟩ := mapE_ok_mem h c' hc'
  cases hs : bm25SumGo log (_tokenize (pyLower c.text)) cs.length
      (bm25Df cs) (bm25AvgLen cs) c.n_tokens 0 qterms with
  | error e => rw [hs] at hfc; simp at hfc
  | ok s =>
    rw [hs] at hfc
    simp only [Except.ok.injEq] at hfc
    exact ⟨c, hc, s, hs, hfc.symm⟩

/-- C7 (confirmed).  On success of the BM25 stage: with a non-empty query
term list every candidate's final `bm25_score` equals
`max 0 (sum / len(query_terms))` for its accumulated per-term BM25 sum, with
an empty query term list it is exactly `0`, and consequently
`bm25_score ≥ 0` always. -/
theorem C7_bm25_final (log : ℚ → ℚ) (qterms : List PyStr)
    (cs out : List DocumentChunk)
    (h : _calculate_bm25_scores log qterms cs = .ok out) :
    (∀ c' ∈ out, 0 ≤ c'.bm25_score) ∧
    (qterms.isEmpty = true → ∀ c' ∈ out, c'.bm25_score = 0) ∧
    (qterms.isEmpty = false → ∀ c' ∈ out, ∃ c ∈ cs, ∃ s : ℚ,
      bm25SumGo log (_tokenize (pyLower c.text)) cs.length (bm25Df cs)
        (bm25AvgLen cs) c.n_tokens 0 qterms = .ok s ∧
      c'.bm25_score = max 0 (s / (qterms.length : ℚ))) := by
  refine ⟨?_, ?_, ?_⟩
  · intro c' hc'
    obtain ⟨c, _, s, _, rfl⟩ := calc_bm25_elem h c' hc'
    by_cases hq : qterms.isEmpty <;> simp [hq, le_max_left]
  · intro hq c' hc'
    obtain ⟨c, _, s, _, rfl⟩ := calc_bm25_elem h c' hc'
    simp [hq]
  · intro hq c' hc'
    obtain ⟨c, hc, s, hgo, rfl⟩ := calc_bm25_elem h c' hc'
    exact ⟨c, hc, s, hgo, by simp [hq]⟩

theorem C7_witness :
    (⟨"x".data, [], [], [], "a b".data, 0, 0, 0, 0, 3, 0, 0, 0, 0⟩ :
      DocumentChunk).bm25_score = 0 :=
  (C7_bm25_final (fun x => x) []
    [⟨"x".data, [], [], [], "a b".data, 0, 0, 0, 0, 3, 0, 0, 0, 0⟩]
    [⟨"x".data, [], [], [], "a b".data, 0, 0, 0, 0, 3, 0, 0, 0, 0⟩] rfl).2.1
    rfl
    ⟨"x".data, [], [], [], "a b".data, 0, 0, 0, 0, 3, 0, 0, 0, 0⟩
    (List.mem_singleton.mpr rfl)

theorem bm25SumGo_error {log : ℚ → ℚ} {ctoks : List PyStr} {n : Nat}
    {df : PyStr → Nat} {avg : ℚ} {ntokens : Nat} (havg : avg = 0) :
    ∀ (ts : List PyStr) (acc : ℚ), (∃ t ∈ ts, ctoks.count t ≠ 0) →
      bm25SumGo log ctoks n df avg ntokens acc ts = .error "ZeroDivisionError" := by
  intro ts
  induction ts with
  | nil => intro acc h; simp at h
  | cons t ts' ih =>
    intro acc h
    unfold bm25SumGo
    by_cases hc : ctoks.count t = 0
    · rw [if_pos hc]
      apply ih
      obtain ⟨t', ht', hcnt⟩ := h
      rcases List.mem_cons.mp ht' with rfl | htail
      · exact absurd hc hcnt
      · exact ⟨t', htail, hcnt⟩
    · rw [if_neg hc, if_pos havg]

theorem bm25SumGo_ok_of_absent {log : ℚ → ℚ} {ctoks : List PyStr} {n : Nat}
    {df : PyStr → Nat} {avg : ℚ} {ntokens : Nat} :
    ∀ (ts : List PyStr) (acc : ℚ), (∀ t ∈ ts, ctoks.count t = 0) →
      bm25SumGo log ctoks n df avg ntokens acc ts = .ok acc := by
  intro ts
  induction ts with
  | nil => intro acc _; rfl
  | cons t ts' ih =>
    intro acc h
    unfold bm25SumGo
    rw [if_pos (h t (List.mem_cons_self _ _))]
    exact ih acc (fun t' ht' => h t' (List.mem_cons_of_mem _ ht'))

theorem bm25SumGo_ok_of_avg_ne {log : ℚ → ℚ} {ctoks : List PyStr} {n : Nat}
    {df : PyStr → Nat} {avg : ℚ} {ntokens : Nat} (havg : ¬avg = 0) :
    ∀ (ts : List PyStr) (acc : ℚ), ∃ s : ℚ,
      bm25SumGo log ctoks n df avg ntokens acc ts = .ok s := by
  intro ts
  induction ts with
  | nil => intro acc; exact ⟨acc, rfl⟩
  | cons t ts' ih =>
    intro acc
    unfold bm25SumGo
    by_cases hc : ctoks.count t = 0
    · rw [if_pos hc]; exact ih acc
    · rw [if_neg hc, if_neg havg]; exact ih _

theorem mapE_error_of {α β : Type} {f : α → Except String β} {E : String} :
    ∀ {l : List α}, (∀ a ∈ l, f a = .error E ∨ ∃ b, f a = .ok b) →
      (∃ a ∈ l, f a = .error E) → mapE f l = .error E := by
  intro l
  induction l with
  | nil => intro _ h; simp at h
  | cons a as ih =>
    intro hall hex
    unfold mapE
    cases hfa : f a with
    | error e =>
      obtain ⟨a', ha', hfa'⟩ := hex
      have : e = E := by
        rcases hall a (List.mem_cons_self _ _) with he | ⟨b, hb⟩
        · rw [hfa] at he; exact (Except.error.injEq _ _).mp he
        · rw [hfa] at hb; exact absurd hb (by simp)
      rw [this]
    | ok b =>
      have hex' : ∃ a' ∈ as, f a' = .error E := by
        obtain ⟨a', ha', hfa'⟩ := hex
        rcases List.mem_cons.mp ha' with rfl | htail
        · rw [hfa] at hfa'; exact absurd hfa' (by simp)
        · exact ⟨a', htail, hfa'⟩
      rw [ih (fun a' ha' => hall a' (List.mem_cons_of_mem _ ha')) hex']

theorem mapE_ok_of {α β : Type} {f : α → Except String β} :
    ∀ {l : List α}, (∀ a ∈ l, ∃ b, f a = .ok b) →
      ∃ out, mapE f l = .ok out := by
  intro l
  induction l with
  | nil => intro _; exact ⟨[], rfl⟩
  | cons a as ih =>
    intro hall
    obtain ⟨b, hb⟩ := hall a (List.mem_cons_self _ _)
    obtain ⟨out, hout⟩ := ih (fun a' ha' => hall a' (List.mem_cons_of_mem _ ha'))
    refine ⟨b :: out, ?_⟩
    unfold mapE
    rw [hb, hout]

theorem bm25AvgLen_zero {cs : List DocumentChunk} (hne : cs ≠ [])
    (hz : ∀ c ∈ cs, c.n_tokens = 0) : bm25AvgLen cs = 0 := by
  unfold bm25AvgLen
  rw [if_neg (by simpa [List.isEmpty_iff] using hne)]
  have hsum : (cs.map fun c => ((c.n_tokens : ℚ))).sum = 0 := by
    apply List.sum_eq_zero
    intro x hx
    obtain ⟨c, hc, rfl⟩ := List.mem_map.mp hx
    rw [hz c hc]
    simp
  rw [hsum, zero_div]

theorem bm25AvgLen_ne_zero {cs : List DocumentChunk}
    (hpos : ∃ c ∈ cs, 0 < c.n_tokens) : ¬bm25AvgLen cs = 0 := by
  obtain ⟨c, hc, hcpos⟩ := hpos
  unfold bm25AvgLen
  rw [if_neg (by simpa [List.isEmpty_iff] using List.ne_nil_of_mem hc)]
  apply ne_of_gt
  apply div_pos
  · have hle : (c.n_tokens : ℚ) ≤ (cs.map fun c => ((c.n_tokens : ℚ))).sum := by
      apply List.single_le_sum
      · intro x hx
        obtain ⟨d, _, rfl⟩ := List.mem_map.mp hx
        positivity
      · exact List.mem_map.mpr ⟨c, hc, rfl⟩
    have hc' : (0 : ℚ) < c.n_tokens := by exact_mod_cast hcpos
    linarith
  · exact_mod_cast List.length_pos.mpr (List.ne_nil_of_mem hc)

/-- C10 (confirmed).  On a non-empty candidate list in which every
candidate has `n_tokens = 0`, any query with a term occurring in some
candidate's tokenized text makes `_calculate_bm25_scores` raise an
unhandled `ZeroDivisionError` (`avg_doc_length` is the mean of the token
counts, `0`, and the per-term denominator divides `n_tokens` by it); and
the stage is total whenever at least one candidate has a positive token
count. -/
theorem C10_zero_token_division (log : ℚ → ℚ) (qterms : List PyStr)
    (cs : List DocumentChunk) :
    ((cs ≠ [] ∧ (∀ c ∈ cs, c.n_tokens = 0) ∧
      (∃ t ∈ qterms, ∃ c ∈ cs, t ∈ _tokenize (pyLower c.text))) →
      _calculate_bm25_scores log qterms cs = .error "ZeroDivisionError") ∧
    ((∃ c ∈ cs, 0 < c.n_tokens) →
      ∃ out, _calculate_bm25_scores log qterms cs = .ok out) := by
  constructor
  · rintro ⟨hne, hzero, t, ht, c0, hc0, htc⟩
    have havg := bm25AvgLen_zero hne hzero
    unfold _calculate_bm25_scores
    apply mapE_error_of
    · intro c _
      by_cases hex : ∃ t' ∈ qterms, (_tokenize (pyLower c.text)).count t' ≠ 0
      · left
        rw [bm25SumGo_error havg qterms 0 hex]
      · right
        push_neg at hex
        refine ⟨{ c with bm25_score :=
          (if qterms.isEmpty then 0 else max 0 (0 / (qterms.length : ℚ))) }, ?_⟩
        rw [bm25SumGo_ok_of_absent qterms 0 hex]
    · refine ⟨c0, hc0, ?_⟩
      have hcnt : (_tokenize (pyLower c0.text)).count t ≠ 0 :=
        Nat.pos_iff_ne_zero.mp (List.count_pos_iff.mpr htc)
      rw [bm25SumGo_error havg qterms 0 ⟨t, ht, hcnt⟩]
  · intro hpos
    have havg := bm25AvgLen_ne_zero hpos
    unfold _calculate_bm25_scores
    apply mapE_ok_of
    intro c _
    obtain ⟨s, hs⟩ := bm25SumGo_ok_of_avg_ne havg qterms 0
    exact ⟨_, by rw [hs]⟩

theorem C10_witness :
    _calculate_bm25_scores (fun x => x) ["a".data]
        [⟨"z".data, [], [], [], "a b".data, 0, 0, 0, 0, 0, 0, 0, 0, 0⟩] =
      .error "ZeroDivisionError" :=
  (C10_zero_token_division (fun x => x) ["a".data]
    [⟨"z".data, [], [], [], "a b".data, 0, 0, 0, 0, 0, 0, 0, 0, 0⟩]).1
    ⟨List.cons_ne_nil _ _, by
      intro c hc
      rcases List.mem_singleton.mp hc with rfl
      rfl,
     "a".data, List.mem_singleton.mpr rfl,
     ⟨"z".data, [], [], [], "a b".data, 0, 0, 0, 0, 0, 0, 0, 0, 0⟩,
     List.mem_singleton.mpr rfl, by decide⟩
